import Mathlib

/-!
Shallow embedding of `defmt-logger-tcp` (`src/defmt-logger-tcp/src/lib.rs`),
a defmt logger that broadcasts framed log bytes to TCP observers.

Modelling conventions:
* A `Conn` models one entry of the `Vec<(TcpStream, Encoder)>` registries:
  a TCP stream together with its per-connection `Encoder` state.
  - `id` is a stable handle identifying the connection (the Rust value's
    identity); `peerAddr` models `TcpStream::peer_addr()`, with `none`
    standing for the error case (`unwrap` of `none` is a panic).
  - `broken` models a stream whose `write_all` fails (I/O error or
    write-timeout); `flushBroken` models a stream whose `flush` fails.
  - `sent` is the byte trace delivered to the peer so far.
  - `enc` is the opaque `defmt::Encoder` state.
* The external `defmt::Encoder` is opaque (out of scope per the spec): a
  `Codec` supplies `startFrame` / `writeFrame` / `endFrame`, each mapping an
  encoder state to a new state plus the list of byte chunks it emits.
* Panics (reentrant acquire, `peer_addr().unwrap()` on an errored socket)
  are modelled by `Option`: `none` means the process aborted.
* Machine bytes are `Nat`s (their numeric value; no arithmetic is done on
  them, so no overflow modelling is needed).
-/

/-- One entry of the stream registries: a TCP stream plus its encoder state. -/
structure Conn where
  id : Nat
  peerAddr : Option Nat
  broken : Bool
  flushBroken : Bool
  sent : List Nat
  enc : List Nat
deriving DecidableEq, Repr

/-- Opaque interface of the external `defmt::Encoder`: each operation maps an
encoder state to a new state and the byte chunks it emits via the callback. -/
structure Codec where
  startFrame : List Nat → List Nat × List (List Nat)
  writeFrame : List Nat → List Nat → List Nat × List (List Nat)
  endFrame : List Nat → List Nat × List (List Nat)

/-- Model of `stream.write_all(bytes)`: a broken stream returns an error and
delivers nothing, otherwise the bytes are appended to the peer's trace. -/
def write_all (conn : Conn) (bytes : List Nat) : Conn × Bool :=
  if conn.broken then (conn, false)
  else ({ conn with sent := conn.sent ++ bytes }, true)

/-- Embedding of `write_stream`, line by line:
`if let Err(e) = stream.write_all(bytes) { *result = Err(e); } *result = Ok(());`
The final unconditional `*result = Ok(())` overwrites any recorded error. -/
def write_stream (conn : Conn) (bytes : List Nat) (result : Bool) : Conn × Bool :=
  let step := write_all conn bytes
  let result := if step.2 then result else false
  let result := true
  (step.1, result)

/-- Sequential emission of the chunks an encoder operation produces: each
chunk is handed to `write_stream` with the shared `result` flag threaded
through, exactly as the `|bytes| write_stream(stream, bytes, &mut result)`
closure does. -/
def emitChunks : Conn → Bool → List (List Nat) → Conn × Bool
  | conn, result, [] => (conn, result)
  | conn, result, b :: rest =>
    let step := write_stream conn b result
    emitChunks step.1 step.2 rest

/-- The closure passed to `on_all_streams` by `Logger::acquire`:
`let mut result = Ok(()); encoder.start_frame(emit); result`. -/
def startOp (c : Codec) (conn : Conn) : Conn × Bool :=
  let fr := c.startFrame conn.enc
  emitChunks { conn with enc := fr.1 } true fr.2

/-- The closure passed to `on_all_streams` by `Logger::write`. -/
def writeOp (c : Codec) (bytes : List Nat) (conn : Conn) : Conn × Bool :=
  let fr := c.writeFrame bytes conn.enc
  emitChunks { conn with enc := fr.1 } true fr.2

/-- The closure passed to `on_all_streams` by `Logger::release`. -/
def endOp (c : Codec) (conn : Conn) : Conn × Bool :=
  let fr := c.endFrame conn.enc
  emitChunks { conn with enc := fr.1 } true fr.2

/-- The closure passed to `on_all_streams` by `Logger::flush`:
`|stream, _| stream.flush()` — the flush result is returned unmodified. -/
def flushOp (conn : Conn) : Conn × Bool :=
  (conn, !conn.flushBroken)

/-- Phase 1 of `on_all_streams`: apply `op` to each stream in order; for each
failure, `stream.peer_addr().unwrap()` is pushed onto `streams_to_drop`
(`none` peer address means the unwrap panics, aborting the pass). Returns the
updated streams and the collected drop addresses. -/
def phase1 (op : Conn → Conn × Bool) : List Conn → Option (List Conn × List Nat)
  | [] => some ([], [])
  | s :: rest =>
    let step := op s
    if step.2 then
      (phase1 op rest).map (fun pr => (step.1 :: pr.1, pr.2))
    else
      match step.1.peerAddr with
      | none => none
      | some a => (phase1 op rest).map (fun pr => (step.1 :: pr.1, a :: pr.2))

/-- One `streams.retain(|(s, _)| s.peer_addr().unwrap() != stream)` pass:
every retained candidate's `peer_addr()` is unwrapped again (`none` panics). -/
def retainStep (a : Nat) : List Conn → Option (List Conn)
  | [] => some []
  | s :: rest =>
    match s.peerAddr with
    | none => none
    | some b => (retainStep a rest).map (fun r => if b = a then r else s :: r)

/-- Phase 2 of `on_all_streams`: one `retain` pass per collected address. -/
def dropAll : List Nat → List Conn → Option (List Conn)
  | [], l => some l
  | a :: rest, l => (retainStep a l).bind (dropAll rest)

/-- Embedding of `on_all_streams`: apply `op` to every active stream,
collecting the peer addresses of the failures, then drop those addresses from
the active list. `none` models a `peer_addr().unwrap()` panic. -/
def on_all_streams (op : Conn → Conn × Bool) (streams : List Conn) :
    Option (List Conn) :=
  (phase1 op streams).bind (fun pr => dropAll pr.2 pr.1)

/-- Process-wide logger state: the `TAKEN` flag and the `PENDING_STREAMS` and
`STREAMS` registries. -/
structure LoggerState where
  taken : Bool
  pending : List Conn
  active : List Conn
deriving DecidableEq, Repr

/-- `STREAMS.lock().extend(PENDING_STREAMS.lock().drain(..))`: all pending
streams move to the back of the active list, in arrival order. -/
def promote (st : LoggerState) : LoggerState :=
  { st with active := st.active ++ st.pending, pending := [] }

/-- The accept-loop body of `run`: a newly accepted stream is appended to the
pending registry. -/
def admitStream (conn : Conn) (st : LoggerState) : LoggerState :=
  { st with pending := st.pending ++ [conn] }

/-- Embedding of `Logger::acquire`: panic (`none`) if `TAKEN` is already set;
otherwise set it, promote pending streams, and broadcast the start-of-frame
bytes to every active stream. -/
def acquire (c : Codec) (st : LoggerState) : Option LoggerState :=
  if st.taken then none
  else
    let st1 := promote { st with taken := true }
    (on_all_streams (startOp c) st1.active).map (fun a => { st1 with active := a })

/-- Embedding of `Logger::release`: broadcast the end-of-frame bytes, then
promote pending streams, then clear `TAKEN`. -/
def release (c : Codec) (st : LoggerState) : Option LoggerState :=
  (on_all_streams (endOp c) st.active).map
    (fun a => { promote { st with active := a } with taken := false })

/-- Embedding of `Logger::write`: broadcast one payload through each stream's
encoder. -/
def logWrite (c : Codec) (bytes : List Nat) (st : LoggerState) :
    Option LoggerState :=
  (on_all_streams (writeOp c bytes) st.active).map (fun a => { st with active := a })

/-- Embedding of `Logger::flush`: broadcast a socket-level flush. -/
def logFlush (st : LoggerState) : Option LoggerState :=
  (on_all_streams flushOp st.active).map (fun a => { st with active := a })

/-- A concrete codec instance used to exercise the model on closed inputs:
the start marker is the single chunk `[255]`, payloads pass through verbatim,
the end marker is the single chunk `[0]`. -/
def rawCodec : Codec where
  startFrame := fun _ => ([], [[255]])
  writeFrame := fun b e => (e, [b])
  endFrame := fun e => (e, [[0]])

/-! ### Basic facts about the write path -/

/-- The dead store in `write_stream`: the result flag it returns is always
`Ok` (`true`), whatever `write_all` did. -/
theorem write_stream_snd (conn : Conn) (bytes : List Nat) (result : Bool) :
    (write_stream conn bytes result).2 = true := rfl

theorem write_all_id (conn : Conn) (bytes : List Nat) :
    (write_all conn bytes).1.id = conn.id := by
  unfold write_all; split <;> rfl

theorem write_all_addr (conn : Conn) (bytes : List Nat) :
    (write_all conn bytes).1.peerAddr = conn.peerAddr := by
  unfold write_all; split <;> rfl

theorem write_all_unbroken (conn : Conn) (bytes : List Nat)
    (h : conn.broken = false) :
    (write_all conn bytes).1 = { conn with sent := conn.sent ++ bytes } := by
  unfold write_all
  simp [h]

theorem emitChunks_snd (chunks : List (List Nat)) :
    ∀ conn : Conn, (emitChunks conn true chunks).2 = true := by
  induction chunks with
  | nil => intro conn; rfl
  | cons b rest ih =>
    intro conn
    show (emitChunks (write_stream conn b true).1 (write_stream conn b true).2 rest).2 = true
    rw [write_stream_snd]
    exact ih _

theorem emitChunks_id (chunks : List (List Nat)) :
    ∀ (conn : Conn) (r : Bool), (emitChunks conn r chunks).1.id = conn.id := by
  induction chunks with
  | nil => intro conn r; rfl
  | cons b rest ih =>
    intro conn r
    show (emitChunks (write_stream conn b r).1 (write_stream conn b r).2 rest).1.id = conn.id
    rw [ih]
    exact write_all_id conn b

theorem emitChunks_unbroken (chunks : List (List Nat)) :
    ∀ conn : Conn, conn.broken = false →
      (emitChunks conn true chunks).1 =
        { conn with sent := conn.sent ++ chunks.flatten } := by
  induction chunks with
  | nil => intro conn _; simp [emitChunks]
  | cons b rest ih =>
    intro conn h
    show (emitChunks (write_stream conn b true).1 (write_stream conn b true).2 rest).1 = _
    rw [write_stream_snd]
    have hw : (write_stream conn b true).1 = { conn with sent := conn.sent ++ b } := by
      show (write_all conn b).1 = _
      exact write_all_unbroken conn b h
    rw [hw, ih { conn with sent := conn.sent ++ b } (by simp [h])]
    simp

theorem startOp_snd (c : Codec) (conn : Conn) : (startOp c conn).2 = true :=
  emitChunks_snd _ _

theorem writeOp_snd (c : Codec) (bytes : List Nat) (conn : Conn) :
    (writeOp c bytes conn).2 = true :=
  emitChunks_snd _ _

theorem endOp_snd (c : Codec) (conn : Conn) : (endOp c conn).2 = true :=
  emitChunks_snd _ _

theorem startOp_id (c : Codec) (conn : Conn) : (startOp c conn).1.id = conn.id :=
  emitChunks_id _ _ _

theorem writeOp_id (c : Codec) (bytes : List Nat) (conn : Conn) :
    (writeOp c bytes conn).1.id = conn.id :=
  emitChunks_id _ _ _

theorem endOp_id (c : Codec) (conn : Conn) : (endOp c conn).1.id = conn.id :=
  emitChunks_id _ _ _

theorem startOp_unbroken (c : Codec) (conn : Conn) (h : conn.broken = false) :
    (startOp c conn).1 =
      { conn with enc := (c.startFrame conn.enc).1,
                  sent := conn.sent ++ (c.startFrame conn.enc).2.flatten } := by
  unfold startOp
  rw [emitChunks_unbroken _ _ (by simp [h])]

theorem writeOp_unbroken (c : Codec) (bytes : List Nat) (conn : Conn)
    (h : conn.broken = false) :
    (writeOp c bytes conn).1 =
      { conn with enc := (c.writeFrame bytes conn.enc).1,
                  sent := conn.sent ++ (c.writeFrame bytes conn.enc).2.flatten } := by
  unfold writeOp
  rw [emitChunks_unbroken _ _ (by simp [h])]

theorem endOp_unbroken (c : Codec) (conn : Conn) (h : conn.broken = false) :
    (endOp c conn).1 =
      { conn with enc := (c.endFrame conn.enc).1,
                  sent := conn.sent ++ (c.endFrame conn.enc).2.flatten } := by
  unfold endOp
  rw [emitChunks_unbroken _ _ (by simp [h])]

/-! ### The broadcast engine -/

theorem phase1_allOk (op : Conn → Conn × Bool) (l : List Conn)
    (h : ∀ s ∈ l, (op s).2 = true) :
    phase1 op l = some (l.map (fun s => (op s).1), []) := by
  induction l with
  | nil => rfl
  | cons s rest ih =>
    show (if (op s).2 then _ else _) = _
    rw [h s (List.mem_cons_self s rest),
        ih (fun t ht => h t (List.mem_cons_of_mem s ht))]
    rfl

/-- When every per-stream operation succeeds, a broadcast updates every
stream in place and drops nothing. -/
theorem on_all_streams_allOk (op : Conn → Conn × Bool) (l : List Conn)
    (h : ∀ s ∈ l, (op s).2 = true) :
    on_all_streams op l = some (l.map (fun s => (op s).1)) := by
  unfold on_all_streams
  rw [phase1_allOk op l h]
  rfl

/-- The peer addresses collected for removal: the addresses of exactly the
streams whose operation failed, in pass order. -/
def dropsOf (op : Conn → Conn × Bool) (l : List Conn) : List Nat :=
  l.filterMap (fun s => if (op s).2 then none else ((op s).1).peerAddr)

theorem phase1_eq (op : Conn → Conn × Bool) (l : List Conn)
    (h : ∀ s ∈ l, ((op s).1).peerAddr.isSome) :
    phase1 op l = some (l.map (fun s => (op s).1), dropsOf op l) := by
  induction l with
  | nil => rfl
  | cons s rest ih =>
    have ihr := ih (fun t ht => h t (List.mem_cons_of_mem s ht))
    show (if (op s).2 then _ else _) = _
    rcases hb : (op s).2 with _ | _
    · rcases ha : ((op s).1).peerAddr with _ | a
      · exact absurd (h s (List.mem_cons_self s rest)) (by simp [ha])
      · simp only [Bool.false_eq_true, if_false, ha, ihr, Option.map_some']
        simp [dropsOf, List.filterMap_cons, hb, ha]
    · simp only [if_true, ihr, Option.map_some']
      simp [dropsOf, List.filterMap_cons, hb]

theorem retainStep_eq (a : Nat) (l : List Conn)
    (h : ∀ s ∈ l, s.peerAddr.isSome) :
    retainStep a l = some (l.filter (fun s => s.peerAddr ≠ some a)) := by
  induction l with
  | nil => rfl
  | cons s rest ih =>
    have ihr := ih (fun t ht => h t (List.mem_cons_of_mem s ht))
    rcases ha : s.peerAddr with _ | b
    · exact absurd (h s (List.mem_cons_self s rest)) (by simp [ha])
    · simp only [retainStep, ha, ihr, Option.map_some']
      by_cases hb : b = a
      · simp [List.filter_cons, ha, hb]
      · simp [List.filter_cons, ha, hb]

theorem dropAll_eq (ds : List Nat) : ∀ l : List Conn,
    (∀ s ∈ l, s.peerAddr.isSome) →
    dropAll ds l = some (l.filter (fun s => ds.all (fun a => s.peerAddr ≠ some a))) := by
  induction ds with
  | nil => intro l _; simp [dropAll]
  | cons a rest ih =>
    intro l h
    show (retainStep a l).bind (dropAll rest) = _
    rw [retainStep_eq a l h]
    show dropAll rest (l.filter _) = _
    rw [ih _ (fun t ht => h t (List.mem_of_mem_filter ht))]
    rw [List.filter_filter]
    congr 1
    refine List.filter_congr (fun s _ => ?_)
    simp [List.all_cons, Bool.and_comm]

/-- The two-phase collect-then-remove protocol, characterized: when every
post-operation stream still has a peer address and those addresses are
pairwise distinct, a broadcast completes (never panics), applies the
operation to every stream, and its result is exactly the updated streams
whose operation succeeded, in their original order. -/
theorem on_all_streams_spec (op : Conn → Conn × Bool) (l : List Conn)
    (h1 : ∀ s ∈ l, ((op s).1).peerAddr.isSome)
    (h2 : (l.map (fun s => ((op s).1).peerAddr)).Nodup) :
    on_all_streams op l =
      some ((l.filter (fun s => (op s).2)).map (fun s => (op s).1)) := by
  have h1' : ∀ t ∈ l.map (fun s => (op s).1), t.peerAddr.isSome := by
    intro t ht
    rcases List.mem_map.mp ht with ⟨s, hs, rfl⟩
    exact h1 s hs
  unfold on_all_streams
  rw [phase1_eq op l h1]
  show dropAll (dropsOf op l) (l.map fun s => (op s).1) = _
  rw [dropAll_eq _ _ h1', List.filter_map]
  refine congrArg some (congrArg (List.map _) (List.filter_congr fun s hs => ?_))
  simp only [Function.comp_apply]
  rcases hb : (op s).2 with _ | _
  · rcases hsome : ((op s).1).peerAddr with _ | a
    · exact absurd (h1 s hs) (by simp [hsome])
    · have hmem : a ∈ dropsOf op l :=
        List.mem_filterMap.mpr ⟨s, hs, by simp [hb, hsome]⟩
      rw [Bool.eq_false_iff]
      intro hall
      have := List.all_eq_true.mp hall a hmem
      simp [Function.comp, hsome] at this
  · rw [List.all_eq_true]
    intro a ha
    rcases List.mem_filterMap.mp ha with ⟨t, htl, hteq⟩
    rcases hbt : (op t).2 with _ | _
    · rw [hbt] at hteq
      simp only [Bool.false_eq_true, if_false] at hteq
      simp only [Function.comp, decide_eq_true_eq]
      intro hcontra
      have heq : (fun s => ((op s).1).peerAddr) s = (fun s => ((op s).1).peerAddr) t := by
        simp only []
        rw [hcontra, hteq]
      have hst := List.inj_on_of_nodup_map h2 hs htl heq
      rw [hst, hbt] at hb
      exact absurd hb (by simp)
    · rw [hbt] at hteq
      simp at hteq

/-! ### One full session: begin, payload writes, end -/

/-- A straight-line run of `Logger::write` over a list of payloads. -/
def writeMany (c : Codec) : List (List Nat) → LoggerState → Option LoggerState
  | [], st => some st
  | b :: rest, st => (logWrite c b st).bind (writeMany c rest)

/-- One complete logging session: `acquire`, all payload writes, `release`. -/
def runSession (c : Codec) (payloads : List (List Nat)) (st : LoggerState) :
    Option LoggerState :=
  (acquire c st).bind (fun st1 => (writeMany c payloads st1).bind (release c))

/-- Reference folding of the codec over a payload list: the final encoder
state and the flattened bytes all the `writeFrame` calls emit. -/
def encodeWrites (c : Codec) : List Nat → List (List Nat) → List Nat × List Nat
  | e, [] => (e, [])
  | e, b :: rest =>
    let w := c.writeFrame b e
    let r := encodeWrites c w.1 rest
    (r.1, w.2.flatten ++ r.2)

/-- The exact byte sequence one fault-free session delivers to a connection:
start-of-frame bytes, the encoded payloads in emission order, end-of-frame
bytes. -/
def frameBytes (c : Codec) (payloads : List (List Nat)) : List Nat :=
  (c.startFrame []).2.flatten
    ++ (encodeWrites c (c.startFrame []).1 payloads).2
    ++ (c.endFrame (encodeWrites c (c.startFrame []).1 payloads).1).2.flatten

/-- The encoder state every connection ends a fault-free session in. -/
def sessionEnc (c : Codec) (payloads : List (List Nat)) : List Nat :=
  (c.endFrame (encodeWrites c (c.startFrame []).1 payloads).1).1

/-- The effect of one fault-free session on a connection: its encoder reaches
`sessionEnc` and it receives exactly `frameBytes`, the same bytes for every
connection. -/
def sessionTr (c : Codec) (payloads : List (List Nat)) (s : Conn) : Conn :=
  { s with enc := sessionEnc c payloads, sent := s.sent ++ frameBytes c payloads }

/-- Intermediate per-connection transform: encoder state `e`, bytes `pre`
delivered so far this session. -/
def tr (e pre : List Nat) (s : Conn) : Conn :=
  { s with enc := e, sent := s.sent ++ pre }

theorem logWrite_tr (c : Codec) (b : List Nat) (l : List Conn) (e pre : List Nat)
    (t : Bool) (p : List Conn) (h : ∀ s ∈ l, s.broken = false) :
    logWrite c b ⟨t, p, l.map (tr e pre)⟩ =
      some ⟨t, p, l.map (tr (c.writeFrame b e).1
                            (pre ++ (c.writeFrame b e).2.flatten))⟩ := by
  unfold logWrite
  rw [on_all_streams_allOk _ _ (fun s _ => writeOp_snd c b s)]
  refine congrArg some ?_
  refine congrArg _ ?_
  rw [List.map_map]
  refine List.map_congr_left fun s hs => ?_
  have hb : (tr e pre s).broken = false := h s hs
  simp only [Function.comp_apply]
  rw [writeOp_unbroken c b _ hb]
  simp [tr, List.append_assoc]

theorem writeMany_tr (c : Codec) (payloads : List (List Nat)) :
    ∀ (l : List Conn) (e pre : List Nat) (t : Bool) (p : List Conn),
      (∀ s ∈ l, s.broken = false) →
      writeMany c payloads ⟨t, p, l.map (tr e pre)⟩ =
        some ⟨t, p, l.map (tr (encodeWrites c e payloads).1
                              (pre ++ (encodeWrites c e payloads).2))⟩ := by
  induction payloads with
  | nil =>
    intro l e pre t p _
    simp [writeMany, encodeWrites]
  | cons b rest ih =>
    intro l e pre t p h
    show (logWrite c b _).bind _ = _
    rw [logWrite_tr c b l e pre t p h]
    rw [Option.some_bind]
    rw [ih l _ _ t p h]
    simp [encodeWrites, List.append_assoc]

theorem acquire_session (c : Codec) (st : LoggerState)
    (hT : st.taken = false)
    (hR : ∀ e₁ e₂, c.startFrame e₁ = c.startFrame e₂)
    (hOk : ∀ s ∈ st.active ++ st.pending, s.broken = false) :
    acquire c st =
      some ⟨true, [], (st.active ++ st.pending).map
              (tr (c.startFrame []).1 (c.startFrame []).2.flatten)⟩ := by
  unfold acquire
  rw [hT]
  simp only [Bool.false_eq_true, if_false, promote]
  rw [on_all_streams_allOk _ _ (fun s _ => startOp_snd c s)]
  refine congrArg some ?_
  refine congrArg _ (List.map_congr_left fun s hs => ?_)
  rw [startOp_unbroken c s (hOk s hs), hR s.enc []]
  rfl

theorem release_session (c : Codec) (l : List Conn) (e pre : List Nat) (t : Bool)
    (h : ∀ s ∈ l, s.broken = false) :
    release c ⟨t, [], l.map (tr e pre)⟩ =
      some ⟨false, [], l.map (tr (c.endFrame e).1
                                 (pre ++ (c.endFrame e).2.flatten))⟩ := by
  unfold release
  rw [on_all_streams_allOk _ _ (fun s _ => endOp_snd c s)]
  refine congrArg some ?_
  simp only [promote, List.append_nil]
  refine congrArg _ ?_
  rw [List.map_map]
  refine List.map_congr_left fun s hs => ?_
  have hb : (tr e pre s).broken = false := h s hs
  simp only [Function.comp_apply]
  rw [endOp_unbroken c _ hb]
  simp [tr, List.append_assoc]

/-! ### Sample connections used by closed witnesses -/

/-- A healthy sample connection. -/
def connA : Conn := ⟨1, some 11, false, false, [], []⟩

/-- A second healthy sample connection. -/
def connB : Conn := ⟨2, some 12, false, false, [], []⟩

/-! ### Claims -/

/-- C2: calling `Logger::acquire` while the session is already active panics
(`none` models process termination); no promotion and no broadcast happen, as
the panic is raised before either — the `none` result carries no mutated
state. -/
theorem reentrant_begin_session_fatal (c : Codec) (st : LoggerState)
    (h : st.taken = true) : acquire c st = none := by
  unfold acquire
  rw [h]
  rfl

theorem reentrant_begin_session_fatal_witness :
    acquire rawCodec ⟨true, [connB], [connA]⟩ = none :=
  reentrant_begin_session_fatal rawCodec ⟨true, [connB], [connA]⟩ rfl

/-- C3: in a fault-free session (no broken stream, codec start-of-frame
resets the encoder state), every one of the N connections active for the
session receives exactly the same byte sequence `frameBytes`: the start-of-
frame bytes, then all encoded payloads in emission order, then the
end-of-frame bytes — appended identically to every connection's trace. -/
theorem fault_free_session_delivers_identical_frame (c : Codec)
    (payloads : List (List Nat)) (st : LoggerState)
    (hT : st.taken = false)
    (hR : ∀ e₁ e₂, c.startFrame e₁ = c.startFrame e₂)
    (hOk : ∀ s ∈ st.active ++ st.pending, s.broken = false) :
    runSession c payloads st =
      some ⟨false, [], (st.active ++ st.pending).map (sessionTr c payloads)⟩ := by
  unfold runSession
  rw [acquire_session c st hT hR hOk, Option.some_bind]
  rw [writeMany_tr c payloads _ _ _ _ _ hOk, Option.some_bind]
  rw [release_session c _ _ _ _ hOk]
  refine congrArg some (congrArg _ (List.map_congr_left fun s hs => ?_))
  simp [tr, sessionTr, sessionEnc, frameBytes, List.append_assoc]

theorem fault_free_session_delivers_identical_frame_witness :
    runSession rawCodec [[1, 2], [3]] ⟨false, [connB], [connA]⟩ =
      some ⟨false, [], ([connA] ++ [connB]).map (sessionTr rawCodec [[1, 2], [3]])⟩ :=
  fault_free_session_delivers_identical_frame rawCodec [[1, 2], [3]]
    ⟨false, [connB], [connA]⟩ rfl (fun _ _ => rfl) (by decide)

/-- C4: `promote` moves all pending connections into the active sequence,
appended in arrival order, and empties the pending sequence; it is performed
at both session boundaries — `acquire` broadcasts the start marker over the
promoted set, and `release` promotes after the end-marker broadcast. -/
theorem promotion_at_session_boundaries (c : Codec) (st : LoggerState)
    (h : st.taken = false) :
    (promote st).active = st.active ++ st.pending ∧
    (promote st).pending = [] ∧
    acquire c st = (on_all_streams (startOp c) (st.active ++ st.pending)).map
        (fun a => ⟨true, [], a⟩) ∧
    release c st = (on_all_streams (endOp c) st.active).map
        (fun a => ⟨false, [], a ++ st.pending⟩) := by
  refine ⟨rfl, rfl, ?_, rfl⟩
  unfold acquire
  rw [h]
  rfl

theorem promotion_at_session_boundaries_witness :
    (promote ⟨false, [connB], [connA]⟩).active = [connA] ++ [connB] ∧
    (promote ⟨false, [connB], [connA]⟩).pending = [] ∧
    acquire rawCodec ⟨false, [connB], [connA]⟩ =
      (on_all_streams (startOp rawCodec) ([connA] ++ [connB])).map
        (fun a => ⟨true, [], a⟩) ∧
    release rawCodec ⟨false, [connB], [connA]⟩ =
      (on_all_streams (endOp rawCodec) [connA]).map
        (fun a => ⟨false, [], a ++ [connB]⟩) :=
  promotion_at_session_boundaries rawCodec ⟨false, [connB], [connA]⟩ rfl

/-! ### Structural facts used by the flush and invariant claims -/

theorem phase1_cons_ok (op : Conn → Conn × Bool) (s : Conn) (rest : List Conn)
    (hb : (op s).2 = true) :
    phase1 op (s :: rest) =
      (phase1 op rest).map (fun pr => ((op s).1 :: pr.1, pr.2)) := by
  show (if (op s).2 then _ else _) = _
  rw [hb]
  rfl

theorem phase1_cons_fail (op : Conn → Conn × Bool) (s : Conn) (rest : List Conn)
    (a : Nat) (hb : (op s).2 = false) (ha : (op s).1.peerAddr = some a) :
    phase1 op (s :: rest) =
      (phase1 op rest).map (fun pr => ((op s).1 :: pr.1, a :: pr.2)) := by
  show (if (op s).2 then _ else _) = _
  rw [hb, ha]
  rfl

theorem phase1_cons_fail_none (op : Conn → Conn × Bool) (s : Conn)
    (rest : List Conn) (hb : (op s).2 = false) (ha : (op s).1.peerAddr = none) :
    phase1 op (s :: rest) = none := by
  show (if (op s).2 then _ else _) = _
  rw [hb, ha]
  rfl

theorem phase1_fst_of_pres (op : Conn → Conn × Bool)
    (hpres : ∀ s, (op s).1 = s) :
    ∀ l u ds, phase1 op l = some (u, ds) → u = l := by
  intro l
  induction l with
  | nil =>
    intro u ds h
    simp [phase1] at h
    exact h.1
  | cons s rest ih =>
    intro u ds h
    rcases hb : (op s).2 with _ | _
    · rcases ha : (op s).1.peerAddr with _ | a
      · rw [phase1_cons_fail_none op s rest hb ha] at h
        exact absurd h (by simp)
      · rw [phase1_cons_fail op s rest a hb ha] at h
        rcases Option.map_eq_some'.mp h with ⟨pr, hpr, heq⟩
        rw [Prod.mk.injEq] at heq
        rw [← heq.1, hpres s, ih pr.1 pr.2 (by rw [hpr])]
    · rw [phase1_cons_ok op s rest hb] at h
      rcases Option.map_eq_some'.mp h with ⟨pr, hpr, heq⟩
      rw [Prod.mk.injEq] at heq
      rw [← heq.1, hpres s, ih pr.1 pr.2 (by rw [hpr])]

theorem retainStep_sublist (a : Nat) :
    ∀ l r, retainStep a l = some r → r.Sublist l := by
  intro l
  induction l with
  | nil =>
    intro r h
    simp [retainStep] at h
    simp [← h]
  | cons s rest ih =>
    intro r h
    rcases ha : s.peerAddr with _ | b
    · simp only [retainStep, ha] at h
      exact absurd h (by simp)
    · simp only [retainStep, ha] at h
      rcases Option.map_eq_some'.mp h with ⟨m, hm, heq⟩
      by_cases hb : b = a
      · rw [if_pos hb] at heq
        rw [← heq]
        exact (ih m hm).cons s
      · rw [if_neg hb] at heq
        rw [← heq]
        exact (ih m hm).cons₂ s

theorem dropAll_sublist (ds : List Nat) :
    ∀ l r, dropAll ds l = some r → r.Sublist l := by
  induction ds with
  | nil =>
    intro l r h
    simp [dropAll] at h
    simp [← h]
  | cons a rest ih =>
    intro l r h
    rcases Option.bind_eq_some.mp h with ⟨m, hm, hrest⟩
    exact (ih m r hrest).trans (retainStep_sublist a l m hm)

/-- A broadcast whose operation leaves each stream unchanged (the flush path)
can only remove streams: its result is a sublist of the input, each survivor
untouched. -/
theorem on_all_streams_sublist_of_pres (op : Conn → Conn × Bool)
    (hpres : ∀ s, (op s).1 = s) (l r : List Conn)
    (h : on_all_streams op l = some r) : r.Sublist l := by
  unfold on_all_streams at h
  rcases Option.bind_eq_some.mp h with ⟨pr, hpr, hdrop⟩
  have hu := phase1_fst_of_pres op hpres l pr.1 pr.2 (by rw [hpr])
  rw [hu] at hdrop
  exact dropAll_sublist pr.2 l r hdrop

/-- A sample connection whose socket-level flush fails. -/
def connC : Conn := ⟨3, some 13, false, true, [], []⟩

/-- C5: the two-phase collect-then-remove protocol. Phase 1 applies the
per-connection operation exactly once to every connection of the starting
active set, in order, regardless of earlier failures (the updated list is the
map of the operation over the whole input); removal happens only after the
full pass, leaving exactly the successful connections; and the broadcast
returns normally (`some`), propagating no per-connection failure to its
caller. Stated for streams whose peer addresses are available and pairwise
distinct (the removal phase identifies streams by peer address). -/
theorem broadcast_two_phase_protocol (op : Conn → Conn × Bool) (l : List Conn)
    (h1 : ∀ s ∈ l, ((op s).1).peerAddr.isSome)
    (h2 : (l.map (fun s => ((op s).1).peerAddr)).Nodup) :
    phase1 op l = some (l.map (fun s => (op s).1), dropsOf op l) ∧
    on_all_streams op l =
      some ((l.filter (fun s => (op s).2)).map (fun s => (op s).1)) :=
  ⟨phase1_eq op l h1, on_all_streams_spec op l h1 h2⟩

theorem broadcast_two_phase_protocol_witness :
    phase1 flushOp [connA, connC] =
      some ([connA, connC].map (fun s => (flushOp s).1), dropsOf flushOp [connA, connC]) ∧
    on_all_streams flushOp [connA, connC] =
      some (([connA, connC].filter (fun s => (flushOp s).2)).map (fun s => (flushOp s).1)) :=
  broadcast_two_phase_protocol flushOp [connA, connC] (by decide) (by decide)

/-- C7: the session flag only transitions Idle-to-Active through `acquire`
and Active-to-Idle through `release`; `logWrite` (emit) and `logFlush` never
change it; and a flush interleaved with emits leaves the pending set intact
and at most removes active connections, each survivor byte-for-byte
untouched — so the begin/payload/end ordering of the frame is unharmed. -/
theorem session_state_transitions (c : Codec) (bytes : List Nat)
    (st sa sr sw sf : LoggerState)
    (ha : acquire c st = some sa) (hr : release c st = some sr)
    (hw : logWrite c bytes st = some sw) (hf : logFlush st = some sf) :
    (st.taken = false ∧ sa.taken = true) ∧
    sr.taken = false ∧
    sw.taken = st.taken ∧
    (sf.taken = st.taken ∧ sf.pending = st.pending ∧ sf.active.Sublist st.active) := by
  have hts : st.taken = false := by
    rcases htc : st.taken with _ | _
    · rfl
    · simp [acquire, htc] at ha
  refine ⟨⟨hts, ?_⟩, ?_, ?_, ?_⟩
  · simp only [acquire, hts, Bool.false_eq_true, if_false] at ha
    rcases Option.map_eq_some'.mp ha with ⟨a, -, heq⟩
    rw [← heq]
    rfl
  · unfold release at hr
    rcases Option.map_eq_some'.mp hr with ⟨a, -, heq⟩
    rw [← heq]
  · unfold logWrite at hw
    rcases Option.map_eq_some'.mp hw with ⟨a, -, heq⟩
    rw [← heq]
  · unfold logFlush at hf
    rcases Option.map_eq_some'.mp hf with ⟨a, hstr, heq⟩
    rw [← heq]
    exact ⟨rfl, rfl, on_all_streams_sublist_of_pres flushOp (fun _ => rfl) st.active a hstr⟩

theorem session_state_transitions_witness :
    ((false = false ∧ true = true) ∧
      false = false ∧
      false = false ∧
      (false = false ∧ ([] : List Conn) = [] ∧ [connA].Sublist [connA])) :=
  session_state_transitions rawCodec [9] ⟨false, [], [connA]⟩
    ⟨true, [], [⟨1, some 11, false, false, [255], []⟩]⟩
    ⟨false, [], [⟨1, some 11, false, false, [0], []⟩]⟩
    ⟨false, [], [⟨1, some 11, false, false, [9], []⟩]⟩
    ⟨false, [], [connA]⟩
    (by decide) (by decide) (by decide) (by decide)

/-- C10: the flush path, unlike the write path, passes the socket operation's
error result through unmodified (`flushOp` fails exactly when the stream's
flush fails, whereas `write_stream` always reports success), so a connection
whose flush errors is removed from the active set after the pass while the
others are retained unchanged. -/
theorem flush_error_pass_through_prunes (st : LoggerState) (conn : Conn)
    (bytes : List Nat) (r : Bool)
    (h1 : ∀ s ∈ st.active, s.peerAddr.isSome)
    (h2 : (st.active.map Conn.peerAddr).Nodup) :
    (flushOp conn).2 = !conn.flushBroken ∧
    (write_stream conn bytes r).2 = true ∧
    logFlush st = some { st with active := st.active.filter (fun s => !s.flushBroken) } := by
  refine ⟨rfl, rfl, ?_⟩
  unfold logFlush
  rw [on_all_streams_spec flushOp st.active h1 h2]
  simp [flushOp]

theorem flush_error_pass_through_prunes_witness :
    (flushOp connC).2 = !connC.flushBroken ∧
    (write_stream connC [9] false).2 = true ∧
    logFlush ⟨false, [], [connA, connC]⟩ =
      some ⟨false, [], [connA, connC].filter (fun s => !s.flushBroken)⟩ :=
  flush_error_pass_through_prunes ⟨false, [], [connA, connC]⟩ connC [9] false
    (by decide) (by decide)

/-- A sample connection whose TCP writes fail (I/O error or write timeout). -/
def connD : Conn := ⟨4, some 14, true, false, [], []⟩

/-- A sample connection whose peer address is unavailable and whose flush
fails. -/
def connN : Conn := ⟨5, none, false, true, [], []⟩

/-- A healthy sample connection whose peer address is unavailable. -/
def connE : Conn := ⟨6, none, false, false, [], []⟩

/-- C1 (code defect): a connection whose send fails is NOT removed. The
underlying `write_all` reports the failure (`false`), but `write_stream`
unconditionally overwrites the recorded error with `Ok(())` (`true`), so the
broadcast sees no failure: the failed connection stays in the active set
untouched and is attempted again by the next broadcast. -/
theorem write_failure_not_pruned_bug :
    (write_all connD [120]).2 = false ∧
    (write_stream connD [120] true).2 = true ∧
    logWrite rawCodec [120] ⟨true, [], [connD]⟩ = some ⟨true, [], [connD]⟩ ∧
    logWrite rawCodec [121] ⟨true, [], [connD]⟩ = some ⟨true, [], [connD]⟩ := by
  decide

/-- C9: the removal phase identifies streams by `peer_addr().unwrap()` and is
not total. First conjunct: a failing stream whose peer address is unavailable
makes the collection phase panic. Second conjunct: even when every failing
stream has an address, the `retain` pass unwraps the address of every
retained stream, so a healthy address-less stream alongside one failure also
panics. -/
theorem removal_phase_peer_addr_panic :
    logFlush ⟨true, [], [connN]⟩ = none ∧
    logFlush ⟨true, [], [connC, connE]⟩ = none := by
  decide

/-! ### Operation traces over the logger -/

/-- The operations the listener thread and the defmt front end can perform on
the shared logger state. -/
inductive LogOp where
  | admitConn (d : Conn)
  | beginSession
  | writeBytes (bytes : List Nat)
  | endSession
  | flushStreams
deriving DecidableEq, Repr

/-- Interpretation of one operation on the logger state. -/
def applyOp (c : Codec) : LogOp → LoggerState → Option LoggerState
  | .admitConn d, st => some (admitStream d st)
  | .beginSession, st => acquire c st
  | .writeBytes b, st => logWrite c b st
  | .endSession, st => release c st
  | .flushStreams, st => logFlush st

/-- A sequence of operations, stopping at the first panic. -/
def runOps (c : Codec) : List LogOp → LoggerState → Option LoggerState
  | [], st => some st
  | e :: rest, st => (applyOp c e st).bind (runOps c rest)

theorem runOps_mid_pending (c : Codec) (evs : List LogOp)
    (hmid : ∀ e ∈ evs, (∃ b, e = LogOp.writeBytes b) ∨ e = LogOp.flushStreams) :
    ∀ st st2, runOps c evs st = some st2 → st2.pending = st.pending := by
  induction evs with
  | nil =>
    intro st st2 h
    simp [runOps] at h
    rw [← h]
  | cons e rest ih =>
    intro st st2 h
    rcases Option.bind_eq_some.mp h with ⟨st1, h1, h2⟩
    have hrest := ih (fun t ht => hmid t (List.mem_cons_of_mem e ht)) st1 st2 h2
    rcases hmid e (List.mem_cons_self e rest) with ⟨b, rfl⟩ | rfl
    · show st2.pending = st.pending
      rcases Option.map_eq_some'.mp h1 with ⟨a, -, heq⟩
      rw [hrest, ← heq]
    · rcases Option.map_eq_some'.mp h1 with ⟨a, -, heq⟩
      rw [hrest, ← heq]

/-- C6: a connection admitted to pending after the session has begun is still
pending, its byte trace untouched, after any sequence of mid-session emits
and flushes (so it receives none of the session's bytes), and the
end-of-session promotion puts that very connection into the active set before
the next `acquire` can run. -/
theorem mid_session_admission_deferred (c : Codec) (d : Conn)
    (st0 st st2 st3 : LoggerState) (evs : List LogOp)
    (hbegin : acquire c st0 = some st)
    (hmid : ∀ e ∈ evs, (∃ b, e = LogOp.writeBytes b) ∨ e = LogOp.flushStreams)
    (hrun : runOps c evs (admitStream d st) = some st2)
    (hend : release c st2 = some st3) :
    st2.pending = st.pending ++ [d] ∧ d ∈ st3.active := by
  have hp : st2.pending = st.pending ++ [d] :=
    runOps_mid_pending c evs hmid (admitStream d st) st2 hrun
  refine ⟨hp, ?_⟩
  unfold release at hend
  rcases Option.map_eq_some'.mp hend with ⟨a, -, heq⟩
  rw [← heq]
  show d ∈ a ++ st2.pending
  rw [hp]
  simp

theorem mid_session_admission_deferred_witness :
    ([connB] : List Conn) = [] ++ [connB] ∧
    connB ∈ [(⟨1, some 11, false, false, [255, 7, 0], []⟩ : Conn), connB] :=
  mid_session_admission_deferred rawCodec connB
    ⟨false, [], [connA]⟩
    ⟨true, [], [⟨1, some 11, false, false, [255], []⟩]⟩
    ⟨true, [connB], [⟨1, some 11, false, false, [255, 7], []⟩]⟩
    ⟨false, [], [⟨1, some 11, false, false, [255, 7, 0], []⟩, connB]⟩
    [LogOp.writeBytes [7], LogOp.flushStreams]
    (by decide)
    (by
      intro e he
      rcases List.mem_cons.mp he with h1 | he2
      · exact Or.inl ⟨[7], h1⟩
      · rcases List.mem_cons.mp he2 with h2 | h3
        · exact Or.inr h2
        · simp at h3)
    (by decide) (by decide)

/-! ### Shapes of the four logger operations -/

theorem acquire_shape (c : Codec) (st st' : LoggerState)
    (h : acquire c st = some st') :
    st.taken = false ∧
    st' = ⟨true, [], (st.active ++ st.pending).map (fun s => (startOp c s).1)⟩ := by
  have hts : st.taken = false := by
    rcases htc : st.taken with _ | _
    · rfl
    · simp [acquire, htc] at h
  refine ⟨hts, ?_⟩
  simp only [acquire, hts, Bool.false_eq_true, if_false] at h
  rw [on_all_streams_allOk _ _ (fun s _ => startOp_snd c s)] at h
  simp only [Option.map_some'] at h
  exact (Option.some.inj h).symm

theorem release_shape (c : Codec) (st st' : LoggerState)
    (h : release c st = some st') :
    st' = ⟨false, [], st.active.map (fun s => (endOp c s).1) ++ st.pending⟩ := by
  unfold release at h
  rw [on_all_streams_allOk _ _ (fun s _ => endOp_snd c s)] at h
  simp only [Option.map_some'] at h
  exact (Option.some.inj h).symm

theorem logWrite_shape (c : Codec) (b : List Nat) (st st' : LoggerState)
    (h : logWrite c b st = some st') :
    st' = ⟨st.taken, st.pending, st.active.map (fun s => (writeOp c b s).1)⟩ := by
  unfold logWrite at h
  rw [on_all_streams_allOk _ _ (fun s _ => writeOp_snd c b s)] at h
  simp only [Option.map_some'] at h
  exact (Option.some.inj h).symm

theorem logFlush_shape (st st' : LoggerState)
    (h1 : ∀ s ∈ st.active, s.peerAddr.isSome)
    (h2 : (st.active.map Conn.peerAddr).Nodup)
    (h : logFlush st = some st') :
    st' = ⟨st.taken, st.pending, st.active.filter (fun s => !s.flushBroken)⟩ := by
  unfold logFlush at h
  rw [on_all_streams_spec flushOp st.active h1 h2] at h
  simp only [Option.map_some'] at h
  rw [(Option.some.inj h).symm]
  simp [flushOp]

/-- The two registries in registry order: pending then active. -/
def allConns (st : LoggerState) : List Conn :=
  st.pending ++ st.active

/-- The connection handles present in either registry. -/
def idsOf (st : LoggerState) : List Nat :=
  (allConns st).map Conn.id

/-- C8: each operation preserves handle uniqueness across the two registries
(every handle in at most one of pending/active, never duplicated), and no
connection disappears except by explicit removal in the flush path after its
flush failed — every other connection's handle survives the step. Stated for
a well-formed state: distinct handles, and active peers with available,
pairwise-distinct addresses (the removal phase identifies streams by peer
address); a freshly admitted connection carries a fresh handle. -/
theorem registry_handle_invariant (c : Codec) (op : LogOp) (st st' : LoggerState)
    (x : Conn)
    (happ : applyOp c op st = some st')
    (hnd : (idsOf st).Nodup)
    (haddr1 : ∀ s ∈ st.active, s.peerAddr.isSome)
    (haddr2 : (st.active.map Conn.peerAddr).Nodup)
    (hfresh : ∀ d, op = LogOp.admitConn d → d.id ∉ idsOf st)
    (hx : x ∈ allConns st) :
    (idsOf st').Nodup ∧
    ((∃ y ∈ allConns st', y.id = x.id) ∨
      (op = LogOp.flushStreams ∧ x ∈ st.active ∧ x.flushBroken = true)) := by
  cases op with
  | admitConn d =>
    have hid : d.id ∉ idsOf st := hfresh d rfl
    simp only [applyOp] at happ
    obtain rfl : admitStream d st = st' := Option.some.inj happ
    constructor
    · show (((st.pending ++ [d]) ++ st.active).map Conn.id).Nodup
      rw [List.append_assoc, List.singleton_append, List.map_append, List.map_cons,
          List.nodup_middle, List.nodup_cons, ← List.map_append]
      exact ⟨hid, hnd⟩
    · left
      refine ⟨x, ?_, rfl⟩
      show x ∈ (st.pending ++ [d]) ++ st.active
      rcases List.mem_append.mp hx with hxl | hxr
      · exact List.mem_append.mpr (Or.inl (List.mem_append.mpr (Or.inl hxl)))
      · exact List.mem_append.mpr (Or.inr hxr)
  | beginSession =>
    simp only [applyOp] at happ
    obtain ⟨hts, rfl⟩ := acquire_shape c st st' happ
    constructor
    · show ((([] : List Conn) ++ (st.active ++ st.pending).map _).map Conn.id).Nodup
      rw [List.nil_append, List.map_map]
      have hids : (st.active ++ st.pending).map (Conn.id ∘ fun s => (startOp c s).1)
          = (st.active ++ st.pending).map Conn.id :=
        List.map_congr_left (fun s _ => startOp_id c s)
      rw [hids]
      exact (List.perm_append_comm.map Conn.id).nodup hnd
    · left
      have hx' : x ∈ st.active ++ st.pending := by
        rcases List.mem_append.mp hx with h1 | h2
        · exact List.mem_append.mpr (Or.inr h1)
        · exact List.mem_append.mpr (Or.inl h2)
      refine ⟨(startOp c x).1, ?_, startOp_id c x⟩
      show (startOp c x).1 ∈ ([] : List Conn) ++ _
      rw [List.nil_append]
      exact List.mem_map_of_mem _ hx'
  | writeBytes b =>
    simp only [applyOp] at happ
    obtain rfl := logWrite_shape c b st st' happ
    constructor
    · show ((st.pending ++ st.active.map _).map Conn.id).Nodup
      rw [List.map_append, List.map_map]
      have hids : st.active.map (Conn.id ∘ fun s => (writeOp c b s).1)
          = st.active.map Conn.id :=
        List.map_congr_left (fun s _ => writeOp_id c b s)
      rw [hids, ← List.map_append]
      exact hnd
    · left
      rcases List.mem_append.mp hx with h1 | h2
      · exact ⟨x, List.mem_append.mpr (Or.inl h1), rfl⟩
      · exact ⟨(writeOp c b x).1,
          List.mem_append.mpr (Or.inr (List.mem_map_of_mem _ h2)), writeOp_id c b x⟩
  | endSession =>
    simp only [applyOp] at happ
    obtain rfl := release_shape c st st' happ
    constructor
    · show ((([] : List Conn) ++ (st.active.map _ ++ st.pending)).map Conn.id).Nodup
      rw [List.nil_append, List.map_append, List.map_map]
      have hids : st.active.map (Conn.id ∘ fun s => (endOp c s).1)
          = st.active.map Conn.id :=
        List.map_congr_left (fun s _ => endOp_id c s)
      rw [hids, ← List.map_append]
      exact (List.perm_append_comm.map Conn.id).nodup hnd
    · left
      rcases List.mem_append.mp hx with h1 | h2
      · refine ⟨x, ?_, rfl⟩
        show x ∈ ([] : List Conn) ++ (st.active.map _ ++ st.pending)
        rw [List.nil_append]
        exact List.mem_append.mpr (Or.inr h1)
      · refine ⟨(endOp c x).1, ?_, endOp_id c x⟩
        show (endOp c x).1 ∈ ([] : List Conn) ++ (st.active.map _ ++ st.pending)
        rw [List.nil_append]
        exact List.mem_append.mpr (Or.inl (List.mem_map_of_mem _ h2))
  | flushStreams =>
    simp only [applyOp] at happ
    obtain rfl := logFlush_shape st st' haddr1 haddr2 happ
    constructor
    · show ((st.pending ++ st.active.filter _).map Conn.id).Nodup
      refine List.Nodup.sublist ?_ hnd
      exact ((List.filter_sublist st.active).append_left st.pending).map Conn.id
    · rcases List.mem_append.mp hx with h1 | h2
      · exact Or.inl ⟨x, List.mem_append.mpr (Or.inl h1), rfl⟩
      · rcases hfb : x.flushBroken with _ | _
        · refine Or.inl ⟨x, List.mem_append.mpr (Or.inr ?_), rfl⟩
          exact List.mem_filter.mpr ⟨h2, by simp [hfb]⟩
        · exact Or.inr ⟨rfl, h2, hfb ▸ rfl⟩

theorem registry_handle_invariant_witness :
    (idsOf ⟨true, [], [connA]⟩).Nodup ∧
    ((∃ y ∈ allConns ⟨true, [], [connA]⟩, y.id = connC.id) ∨
      (LogOp.flushStreams = LogOp.flushStreams ∧
        connC ∈ [connA, connC] ∧ connC.flushBroken = true)) :=
  registry_handle_invariant rawCodec LogOp.flushStreams
    ⟨true, [], [connA, connC]⟩ ⟨true, [], [connA]⟩ connC
    (by decide) (by decide) (by decide) (by decide)
    (fun d h => nomatch h) (by decide)
